import Mathlib

/-!
Verification of the proofreader core pipeline (src/proofreader/src/diff.ts).

The TypeScript source is shallowly embedded below.  JavaScript strings are
modeled as Lean `String`s / `List Char`s, the DP tables and scanning loops
as structural recursions, and the two external OpenAI calls as oracles:
the segmentation service is a function from a paragraph index to its list
of sentence strings, and the correction service call is a `CallOutcome`
(either a parsed JSON response or a failure caught by the `catch` block).
`Promise.all` is modeled explicitly: each concurrent task writes its result
into its own slot, the completion order being an arbitrary permutation
(`sched`) of the slot indices, and the assembled array is read back in slot
order, which is exactly the ECMAScript semantics of `Promise.all`.
-/

/-- `Position` from diff.ts: zero-based line/column in the original document. -/

structure Position where
  lineIndex : Nat
  columnIndex : Nat
deriving DecidableEq, Repr

/-- `Range` from diff.ts: half-open span in the document. -/
structure Range where
  startsAt : Position
  endsAt : Position
deriving DecidableEq, Repr

/-- `DocumentSentence` from diff.ts. -/
structure DocumentSentence where
  range : Range
  text : String
deriving DecidableEq, Repr

/-- `CorrectionResult` from diff.ts. -/
structure CorrectionResult where
  range : Range
  errors : List String
  originalSentence : String
  correctedSentence : String
deriving DecidableEq, Repr

/-- The JSON shape `{error: string[], correctedSentence: string}` returned by
the correction service (diff.ts line 374). -/
structure APIResponse where
  error : List String
  correctedSentence : String
deriving DecidableEq, Repr

/-- Document order on positions: `p` is at or before `q`. -/
def posLe (p q : Position) : Prop :=
  p.lineIndex < q.lineIndex ∨ (p.lineIndex = q.lineIndex ∧ p.columnIndex ≤ q.columnIndex)

/-- Strict document order on positions. -/
def posLt (p q : Position) : Prop :=
  p.lineIndex < q.lineIndex ∨ (p.lineIndex = q.lineIndex ∧ p.columnIndex < q.columnIndex)

instance (p q : Position) : Decidable (posLe p q) := by
  unfold posLe; exact inferInstance

instance (p q : Position) : Decidable (posLt p q) := by
  unfold posLt; exact inferInstance

/-- The JavaScript whitespace class: the characters matched by `/\s/` and
stripped by `String.prototype.trim` (ECMA-262 WhiteSpace + LineTerminator). -/
def isWS (c : Char) : Bool :=
  c.toNat = 0x20 ∨ c.toNat = 0x9 ∨ c.toNat = 0xa ∨ c.toNat = 0xb ∨ c.toNat = 0xc ∨
  c.toNat = 0xd ∨ c.toNat = 0xa0 ∨ c.toNat = 0x1680 ∨
  (0x2000 ≤ c.toNat ∧ c.toNat ≤ 0x200a) ∨ c.toNat = 0x2028 ∨ c.toNat = 0x2029 ∨
  c.toNat = 0x202f ∨ c.toNat = 0x205f ∨ c.toNat = 0x3000 ∨ c.toNat = 0xfeff

/-- Remove every whitespace character, keeping the rest in order. -/
def stripWS (l : List Char) : List Char := l.filter (fun c => !(isWS c))

/-- `sentence.replace(/\s+/g, '')` of diff.ts line 267, on the character list. -/
def cleanChars (s : String) : List Char := stripWS s.data

/-- `text.split('\n')` on a character list: JavaScript split semantics
(an empty string yields one empty line; a trailing newline yields a final
empty line). -/
def splitNl : List Char → List (List Char)
  | [] => [[]]
  | c :: rest =>
    match splitNl rest with
    | [] => [[c]]
    | l :: ls => if c = '\n' then [] :: l :: ls else (c :: l) :: ls

/-- `originalText.split('\n')` of diff.ts lines 161 and 262. -/
def splitLines (s : String) : List (List Char) := splitNl s.data

/-- `String.prototype.trim`: drop JavaScript whitespace from both ends
(trailing first, then leading; the order does not matter for the result). -/
def trimChars (l : List Char) : List Char :=
  ((l.reverse.dropWhile isWS).reverse).dropWhile isWS

/-- `buf.trim()` as a string-to-string function. -/
def jsTrim (s : String) : String := String.mk (trimChars s.data)

/-- One step outcome of the character scan inside `findEndPosition`
(diff.ts lines 274-313): either the match completed on this line, or the
line was exhausted and the scan continues on the next line with the carried
match state.  The match state `acc` is `none` when `matchCount = 0`
(no candidate start), and `some (start, matchCount)` when `matchCount > 0`
with `start` the recorded candidate start position. -/
inductive ScanStep where
  | found (startPos endPos : Position)
  | cont (acc : Option (Position × Nat))
deriving DecidableEq, Repr

/-- The inner `while (currentColumn < lines[currentLine].length)` loop of
`findEndPosition` (diff.ts lines 275-308), over the remaining characters of
the current line.  `cs` is the whitespace-stripped sentence, `li` the current
line index, `col` the column of the first character of the suffix. -/
def scanLine (cs : List Char) (li : Nat) : List Char → Nat → Option (Position × Nat) → ScanStep
  | [], _, acc => .cont acc
  | c :: rest, col, acc =>
    if isWS c then
      -- skip whitespace without advancing the match (lines 279-282)
      scanLine cs li rest (col + 1) acc
    else
      match acc with
      | none =>
        if cs[0]? = some c then
          -- matchCount goes 0 → 1: record the candidate start (lines 287-289)
          if 1 = cs.length then .found ⟨li, col⟩ ⟨li, col + 1⟩
          else scanLine cs li rest (col + 1) (some (⟨li, col⟩, 1))
        else
          -- mismatch: reset and move to the very next character (lines 302-305)
          scanLine cs li rest (col + 1) none
      | some (st, mc) =>
        if cs[mc]? = some c then
          if mc + 1 = cs.length then .found st ⟨li, col + 1⟩
          else scanLine cs li rest (col + 1) (some (st, mc + 1))
        else
          scanLine cs li rest (col + 1) none

/-- The outer `while (currentLine < lines.length)` loop of `findEndPosition`
(diff.ts lines 274-313): scan the remaining lines, resetting the column to 0
on each new line (lines 311-312). -/
def scanLines (cs : List Char) : List (List Char) → Nat → Nat → Option (Position × Nat) →
    Option (Position × Position)
  | [], _, _, _ => none
  | l :: ls, li, col, acc =>
    match scanLine cs li (l.drop col) col acc with
    | .found s e => some (s, e)
    | .cont acc2 => scanLines cs ls (li + 1) 0 acc2

/-- `findEndPosition` from diff.ts lines 261-317: locate `sentence` in
`originalText` at or after `startPosition`, ignoring whitespace; `none`
models the `{success: false}` result. -/
def findEndPosition (sentence : String) (originalText : String) (startPosition : Position) :
    Option (Position × Position) :=
  let lines := splitLines originalText
  let cs := cleanChars sentence
  scanLines cs (lines.drop startPosition.lineIndex) startPosition.lineIndex
    startPosition.columnIndex none

/-- The document content covered by the half-open span from `ps` (inclusive)
to `pe` (exclusive): the characters of the split lines at every position at
or after `ps` and strictly before `pe`, in document order.  Newline
characters themselves are not represented (they are whitespace, and every
use below strips whitespace). -/
def contentBetween (lines : List (List Char)) (ps pe : Position) : List Char :=
  if ps.lineIndex = pe.lineIndex then
    ((lines.getD ps.lineIndex []).take pe.columnIndex).drop ps.columnIndex
  else
    ((lines.getD ps.lineIndex []).drop ps.columnIndex) ++
    (((lines.drop (ps.lineIndex + 1)).take (pe.lineIndex - ps.lineIndex - 1)).flatten) ++
    ((lines.getD pe.lineIndex []).take pe.columnIndex)

/-- The inner loop of `calculateRanges` (diff.ts lines 237-256): locate each
sentence from the current cursor; on success record the range and move the
cursor to the end position, on failure keep the cursor unchanged. -/
def calcGo : List String → String → Position → List DocumentSentence
  | [], _, _ => []
  | s :: rest, originalText, cur =>
    match findEndPosition s originalText cur with
    | some (ps, pe) =>
      { range := { startsAt := ps, endsAt := pe }, text := s } ::
        calcGo rest originalText ⟨pe.lineIndex, pe.columnIndex⟩
    | none => calcGo rest originalText cur

/-- `calculateRanges` from diff.ts lines 233-259. -/
def calculateRanges (sentences : List String) (originalText : String) (startLine : Nat) :
    List DocumentSentence :=
  calcGo sentences originalText ⟨startLine, 0⟩

/-- The `{text, startLine}` paragraph record of diff.ts line 160. -/
structure Paragraph where
  text : String
  startLine : Nat
deriving DecidableEq, Repr

/-- The loop body of `splitIntoParagraphs` (diff.ts lines 166-178):
`buf` is `currentParagraph` (accumulated lines, each followed by `'\n'`),
`i` the current line number, `sl` the pending `startLine`, `acc` the emitted
paragraphs.  A line starting with `'#'` while the buffer is non-empty closes
the current paragraph with `buf.trim()`. -/
def paraSplitGo : List (List Char) → Nat → List Char → Nat → List Paragraph → List Paragraph
  | [], _, buf, sl, acc =>
    if buf = [] then acc else acc ++ [{ text := String.mk (trimChars buf), startLine := sl }]
  | line :: rest, i, buf, sl, acc =>
    if line.head? = some '#' ∧ buf ≠ [] then
      paraSplitGo rest (i + 1) (line ++ ['\n']) i
        (acc ++ [{ text := String.mk (trimChars buf), startLine := sl }])
    else
      paraSplitGo rest (i + 1) (buf ++ line ++ ['\n']) sl acc

/-- `splitIntoParagraphs` from diff.ts lines 160-181. -/
def splitIntoParagraphs (text : String) : List Paragraph :=
  paraSplitGo (splitLines text) 0 [] 0 []

/-- The run type of a diff part (diff.ts line 1). -/
inductive DiffType where
  | equal
  | insert
  | delete
deriving DecidableEq, Repr

/-- `DiffPart` from diff.ts line 1; the JS string `value` is modeled as a
character list. -/
structure DiffPart where
  type : DiffType
  value : List Char
deriving DecidableEq, Repr

/-- One row update of the LCS table (the inner `for j` loop of `computeDiff`,
diff.ts lines 10-16): `diag` is `dp[i-1][j-1]`, `prevRest` the remaining
entries `dp[i-1][j..]`, `left` the entry `dp[i][j-1]` just computed. -/
def lcsRowAux (a : Char) : List Char → Nat → List Nat → Nat → List Nat
  | [], _, _, _ => []
  | b :: bs, diag, prevRest, left =>
    let up := prevRest.headD 0
    let cur := if a = b then diag + 1 else max up left
    cur :: lcsRowAux a bs up prevRest.tail cur

/-- Build row `i` of the LCS table from row `i-1` (`prev`); entry 0 is the
table initialization `dp[i][0] = 0`. -/
def lcsRow (a : Char) (t2 : List Char) (prev : List Nat) : List Nat :=
  0 :: lcsRowAux a t2 (prev.headD 0) prev.tail 0

/-- The rows `dp[1..m]` of the LCS table, each built from its predecessor
(the outer `for i` loop of `computeDiff`, diff.ts lines 9-17). -/
def lcsRowsAux (t2 : List Char) : List Char → List Nat → List (List Nat)
  | [], _ => []
  | a :: as, prev =>
    let r := lcsRow a t2 prev
    r :: lcsRowsAux t2 as r

/-- The full LCS table `dp[0..m][0..n]` of `computeDiff` (diff.ts line 6-17):
row 0 is all zeros. -/
def lcsTable (t1 t2 : List Char) : List (List Nat) :=
  let row0 := List.replicate (t2.length + 1) 0
  row0 :: lcsRowsAux t2 t1 row0

/-- The backtracking loop of `computeDiff` (diff.ts lines 20-34), building the
single-character diff parts front to back via an accumulator (the loop
`unshift`s while `i`/`j` decrease).  `dp i j` looks up the LCS table;
`fuel ≥ i + j` guarantees termination of the structural recursion.
A character access `text[k]` is `(t.get? k).toList` (a one-character value). -/
def backtrackAux (t1 t2 : List Char) (dp : Nat → Nat → Nat) :
    Nat → Nat → Nat → List DiffPart → List DiffPart
  | 0, _, _, acc => acc
  | fuel + 1, i, j, acc =>
    if i = 0 ∧ j = 0 then acc
    else if 0 < i ∧ 0 < j ∧ t1[i - 1]? = t2[j - 1]? then
      backtrackAux t1 t2 dp fuel (i - 1) (j - 1)
        ({ type := .equal, value := (t1[i - 1]?).toList } :: acc)
    else if 0 < j ∧ (i = 0 ∨ dp i (j - 1) ≥ dp (i - 1) j) then
      backtrackAux t1 t2 dp fuel i (j - 1)
        ({ type := .insert, value := (t2[j - 1]?).toList } :: acc)
    else
      backtrackAux t1 t2 dp fuel (i - 1) j
        ({ type := .delete, value := (t1[i - 1]?).toList } :: acc)

/-- The loop of `mergeDiff` (diff.ts lines 43-56): `cur` is the `current`
part being extended (its `none` state is the initial `null`). -/
def mergeGo : Option DiffPart → List DiffPart → List DiffPart
  | none, [] => []
  | some cur, [] => [cur]
  | none, p :: rest => mergeGo (some p) rest
  | some cur, p :: rest =>
    if cur.type = p.type then mergeGo (some { type := cur.type, value := cur.value ++ p.value }) rest
    else cur :: mergeGo (some p) rest

/-- `mergeDiff` from diff.ts lines 39-59. -/
def mergeDiff (diff : List DiffPart) : List DiffPart := mergeGo none diff

/-- `computeDiff` from diff.ts lines 3-37: LCS table, backtracking, merge. -/
def computeDiff (text1 text2 : String) : List DiffPart :=
  let t1 := text1.data
  let t2 := text2.data
  let rows := lcsTable t1 t2
  let dp := fun i j => (rows.getD i []).getD j 0
  mergeDiff (backtrackAux t1 t2 dp (t1.length + t2.length + 1) t1.length t2.length [])

/-- Concatenation of the values of the `equal` and `delete` runs: the side of
the diff that reconstructs the first (original) text. -/
def restoreOriginal : List DiffPart → List Char
  | [] => []
  | p :: ps => (match p.type with | .insert => [] | _ => p.value) ++ restoreOriginal ps

/-- Concatenation of the values of the `equal` and `insert` runs: the side of
the diff that reconstructs the second (corrected) text. -/
def restoreCorrected : List DiffPart → List Char
  | [] => []
  | p :: ps => (match p.type with | .delete => [] | _ => p.value) ++ restoreCorrected ps

/-- Outcome of one external correction call (`this.openai.chat.completions.create`
plus JSON parsing, diff.ts lines 376-398): either a parsed response object, or
a failure (network error, missing content, malformed JSON) that lands in the
`catch` block. -/
inductive CallOutcome where
  | ok (response : APIResponse)
  | failure
deriving DecidableEq, Repr

/-- `callOpenAIAPI` from diff.ts lines 374-403: a successful call returns the
parsed response; any failure is caught and degrades to
`{error: [], correctedSentence: ''}` (lines 399-402). -/
def callOpenAIAPI : CallOutcome → APIResponse
  | .ok r => r
  | .failure => { error := [], correctedSentence := "" }

/-- The per-sentence record construction of `correctTextStream`
(diff.ts lines 136-150): report the service's errors and correction exactly
when the error list is non-empty and the corrected sentence differs from the
original; otherwise report no errors and echo the original text. -/
def mkCorrectionRecord (sentence : DocumentSentence) (response : APIResponse) : CorrectionResult :=
  if 0 < response.error.length ∧ response.correctedSentence ≠ sentence.text then
    { range := sentence.range, errors := response.error,
      originalSentence := sentence.text, correctedSentence := response.correctedSentence }
  else
    { range := sentence.range, errors := [],
      originalSentence := sentence.text, correctedSentence := sentence.text }

/-- `items.map((item, index) => ({item, index}))` starting at index `n`:
tag each element with its index. -/
def withIdx {α : Type} : Nat → List α → List (Nat × α)
  | _, [] => []
  | n, a :: as => (n, a) :: withIdx (n + 1) as

/-- `Promise.all` over one batch: every task `j` of the batch completes (in
the completion order `sched`, an arbitrary permutation of the slot indices)
and writes its result into slot `j`; the assembled array is read back in
slot order.  This is the ECMAScript semantics: the result array is indexed
by task position, not by completion time. -/
def promiseAll {α β : Type} (items : List α) (compute : α → β) (sched : List Nat) : List β :=
  let events : List (Nat × β) :=
    sched.filterMap (fun j => (items[j]?).map (fun a => (j, compute a)))
  (List.range items.length).filterMap (fun i => events.lookup i)

/-- The batch loop of `correctTextStream` (diff.ts lines 129-157): take the
next `mc` (= `maxConcurrency`) tasks, run them concurrently (`Promise.all`
with completion order `sched b` for batch `b`), emit the batch's records in
slot order, then continue with the remaining tasks.  `fuel` bounds the
structural recursion (any `fuel > tasks.length` is enough when `mc > 0`). -/
def streamGo (mc : Nat) (outcome : Nat → CallOutcome) (sched : Nat → List Nat) :
    Nat → Nat → List (Nat × DocumentSentence) → List CorrectionResult
  | 0, _, _ => []
  | _ + 1, _, [] => []
  | fuel + 1, b, t :: ts =>
    let batch := (t :: ts).take mc
    promiseAll batch
      (fun task => mkCorrectionRecord task.2 (callOpenAIAPI (outcome task.1))) (sched b)
      ++ streamGo mc outcome sched fuel (b + 1) ((t :: ts).drop mc)

/-- `correctTextStream` from diff.ts lines 126-158, with the external call
outcomes given per sentence index by `outcome` and the completion order of
batch `b` given by `sched b`.  The async generator's emissions are collected
into the output list in emission order.  (The prompt built from the context
window, lines 132-133, only feeds the external service; it does not affect
which record is constructed, so it is absorbed into the `outcome` oracle.) -/
def correctTextStream (mc : Nat) (sentences : List DocumentSentence)
    (outcome : Nat → CallOutcome) (sched : Nat → List Nat) : List CorrectionResult :=
  streamGo mc outcome sched (sentences.length + 1) 0 (withIdx 0 sentences)

/-- Stable insertion of one `{index, sentences}` result into a sorted list,
by ascending index. -/
def sortInsert (x : Nat × List DocumentSentence) :
    List (Nat × List DocumentSentence) → List (Nat × List DocumentSentence)
  | [] => [x]
  | y :: ys => if x.1 ≤ y.1 then x :: y :: ys else y :: sortInsert x ys

/-- `results.sort((a, b) => a.index - b.index)` of diff.ts line 118. -/
def sortByIndex (l : List (Nat × List DocumentSentence)) : List (Nat × List DocumentSentence) :=
  l.foldr sortInsert []

/-- The batch loop of `processParagraphs` (diff.ts lines 107-115): segment
each paragraph of the batch with the external service (`segment` gives the
sentence list per paragraph index) and compute its positioned sentences with
`calculateRanges`, seeded at `{line: paragraph.startLine + 1, column: 0}`
(line 111); results stay tagged with the paragraph index. -/
def paraGo (mc : Nat) (text : String) (segment : Nat → List String) (sched : Nat → List Nat) :
    Nat → Nat → List (Nat × Paragraph) → List (Nat × List DocumentSentence)
  | 0, _, _ => []
  | _ + 1, _, [] => []
  | fuel + 1, b, t :: ts =>
    let batch := (t :: ts).take mc
    promiseAll batch
      (fun task => (task.1, calculateRanges (segment task.1) text (task.2.startLine + 1)))
      (sched b)
      ++ paraGo mc text segment sched fuel (b + 1) ((t :: ts).drop mc)

/-- `processParagraphs` from diff.ts lines 99-124: split into paragraphs,
process them in batches, sort the tagged results back into paragraph order,
and flatten the sentence lists. -/
def processParagraphs (mc : Nat) (text : String) (segment : Nat → List String)
    (sched : Nat → List Nat) : List DocumentSentence :=
  let paragraphs := splitIntoParagraphs text
  let tasks := withIdx 0 paragraphs
  let results := paraGo mc text segment sched (tasks.length + 1) 0 tasks
  ((sortByIndex results).map (fun r => r.2)).flatten

/-- Invariant carried by the match state of the scan: whenever a candidate
start is recorded, it lies between the search start `P0` and the cursor
`cur`, the match count is a positive strict prefix length, and the
non-whitespace content from the candidate start to the cursor is exactly the
matched prefix of the cleaned sentence. -/
def AccInv (lines : List (List Char)) (cs : List Char) (P0 : Position)
    (acc : Option (Position × Nat)) (cur : Position) : Prop :=
  ∀ st mc, acc = some (st, mc) →
    posLe P0 st ∧ posLe st cur ∧ 0 < mc ∧ mc < cs.length ∧
    stripWS (contentBetween lines st cur) = cs.take mc

/-- A tiny concrete sentence used by the concrete witnesses. -/
def demoSentence1 : DocumentSentence :=
  { range := { startsAt := ⟨0, 0⟩, endsAt := ⟨0, 1⟩ }, text := "x" }

/-- A second concrete sentence used by the concrete witnesses. -/
def demoSentence2 : DocumentSentence :=
  { range := { startsAt := ⟨0, 1⟩, endsAt := ⟨0, 2⟩ }, text := "y" }

/-- The canonical completion schedule (tasks complete in slot order). -/
def demoSched (mc : Nat) (sentences : List DocumentSentence) : Nat → List Nat :=
  fun b => List.range (((withIdx 0 sentences).drop (b * mc)).take mc).length

theorem posLe_refl (p : Position) : posLe p p := Or.inr ⟨rfl, Nat.le_refl _⟩

theorem posLe_trans {p q r : Position} (h1 : posLe p q) (h2 : posLe q r) : posLe p r := by
  unfold posLe at *; rcases h1 with h1 | ⟨h1, h1c⟩ <;> rcases h2 with h2 | ⟨h2, h2c⟩ <;> omega

theorem posLe_of_lt {p q : Position} (h : posLt p q) : posLe p q := by
  unfold posLt posLe at *; rcases h with h | ⟨h, hc⟩ <;> omega

theorem posLe_lt_trans {p q r : Position} (h1 : posLe p q) (h2 : posLt q r) : posLt p r := by
  unfold posLe posLt at *; rcases h1 with h1 | ⟨h1, h1c⟩ <;> rcases h2 with h2 | ⟨h2, h2c⟩ <;> omega

theorem posLt_le_trans {p q r : Position} (h1 : posLt p q) (h2 : posLe q r) : posLt p r := by
  unfold posLe posLt at *; rcases h1 with h1 | ⟨h1, h1c⟩ <;> rcases h2 with h2 | ⟨h2, h2c⟩ <;> omega

theorem posLe_succCol (li col : Nat) : posLe ⟨li, col⟩ ⟨li, col + 1⟩ :=
  Or.inr ⟨rfl, Nat.le_succ _⟩

theorem posLt_succCol (li col : Nat) : posLt ⟨li, col⟩ ⟨li, col + 1⟩ :=
  Or.inr ⟨rfl, Nat.lt_succ_self _⟩

theorem posLe_nextLine (li col : Nat) : posLe ⟨li, col⟩ ⟨li + 1, 0⟩ :=
  Or.inl (Nat.lt_succ_self _)

theorem contentBetween_self (lines : List (List Char)) (p : Position) :
    contentBetween lines p p = [] := by
  unfold contentBetween
  rw [if_pos rfl]
  apply List.drop_eq_nil_of_le
  simp [List.length_take]

theorem contentBetween_extend (lines : List (List Char)) {st : Position} {li col : Nat} {c : Char}
    (hc : (lines.getD li [])[col]? = some c) (hle : posLe st ⟨li, col⟩) :
    contentBetween lines st ⟨li, col + 1⟩ = contentBetween lines st ⟨li, col⟩ ++ [c] := by
  have hcol : col < (lines.getD li []).length := by
    rw [List.getElem?_eq_some] at hc; exact hc.1
  unfold posLe at hle
  dsimp only at hle
  unfold contentBetween
  dsimp only
  rcases hle with hlt | ⟨heq, hcle⟩
  · have hne : ¬ st.lineIndex = li := Nat.ne_of_lt hlt
    rw [if_neg hne, if_neg hne, List.take_succ, hc]
    simp [List.append_assoc]
  · rw [heq, if_pos rfl, if_pos rfl, List.take_succ, hc]
    have hlen : st.columnIndex ≤ ((lines.getD li []).take col).length := by
      simp only [List.length_take]; omega
    rw [Option.toList_some, List.drop_append_of_le_length hlen]

theorem contentBetween_nextLine (lines : List (List Char)) {st : Position} {li col : Nat}
    (hlen : (lines.getD li []).length ≤ col) (hle : posLe st ⟨li, col⟩) :
    contentBetween lines st ⟨li + 1, 0⟩ = contentBetween lines st ⟨li, col⟩ := by
  unfold posLe at hle
  dsimp only at hle
  unfold contentBetween
  dsimp only
  rcases hle with hlt | ⟨heq, _⟩
  · have hne : ¬ st.lineIndex = li := Nat.ne_of_lt hlt
    have hne1 : ¬ st.lineIndex = li + 1 := by omega
    rw [if_neg hne, if_neg hne1]
    have harith : li + 1 - st.lineIndex - 1 = (li - st.lineIndex - 1) + 1 := by omega
    rw [harith, List.take_succ, List.getElem?_drop]
    have hidx : st.lineIndex + 1 + (li - st.lineIndex - 1) = li := by omega
    rw [hidx]
    cases hL : lines[li]? with
    | some L =>
      have hgetD : lines.getD li [] = L := by
        rw [List.getD_eq_getElem?_getD, hL]; rfl
      rw [hgetD] at hlen
      simp [hgetD, hL, List.take_of_length_le hlen, List.append_assoc]
    | none =>
      have hgetD : lines.getD li [] = [] := by
        rw [List.getD_eq_getElem?_getD, hL]; rfl
      simp [hgetD, hL]
  · rw [heq, if_pos rfl, if_neg (by omega : ¬ li = li + 1)]
    have h0 : li + 1 - li - 1 = 0 := by omega
    rw [h0, List.take_of_length_le hlen]
    simp

theorem stripWS_append (a b : List Char) : stripWS (a ++ b) = stripWS a ++ stripWS b :=
  List.filter_append _ _

theorem stripWS_ws_singleton {c : Char} (hwc : isWS c = true) : stripWS [c] = [] := by
  simp [stripWS, hwc]

theorem stripWS_nonws_singleton {c : Char} (hwc : isWS c = false) : stripWS [c] = [c] := by
  simp [stripWS, hwc]

theorem AccInv_none (lines : List (List Char)) (cs : List Char) (P0 : Position) (cur : Position) :
    AccInv lines cs P0 none cur := by
  intro st mc h; cases h

theorem take_succ_of_getElem {α : Type} {l : List α} {n : Nat} {a : α} (h : l[n]? = some a) :
    l.take (n + 1) = l.take n ++ [a] := by
  rw [List.take_succ, h]; rfl

/-- Soundness of the inner line scan: from a state satisfying the invariant,
a `found` result spans exactly the cleaned sentence (whitespace aside) at or
after the search start, and a `cont` result re-establishes the invariant at
the start of the next line. -/
theorem scanLine_spec (lines : List (List Char)) (cs : List Char) (P0 : Position) (li : Nat)
    (suffix : List Char) :
    ∀ (col : Nat) (acc : Option (Position × Nat)),
      suffix = (lines.getD li []).drop col →
      posLe P0 ⟨li, col⟩ →
      AccInv lines cs P0 acc ⟨li, col⟩ →
      (∀ s e, scanLine cs li suffix col acc = .found s e →
        posLe P0 s ∧ posLt s e ∧ stripWS (contentBetween lines s e) = cs) ∧
      (∀ acc2, scanLine cs li suffix col acc = .cont acc2 →
        AccInv lines cs P0 acc2 ⟨li + 1, 0⟩) := by
  induction suffix with
  | nil =>
    intro col acc hsuf hP hInv
    have hlen : (lines.getD li []).length ≤ col := by
      have := hsuf.symm
      rwa [List.drop_eq_nil_iff] at this
    constructor
    · intro s e h; simp [scanLine] at h
    · intro acc2 h
      have hacc : acc = acc2 := by simpa [scanLine] using h
      subst hacc
      intro st mc hsome
      obtain ⟨h1, h2, h3, h4, h5⟩ := hInv st mc hsome
      refine ⟨h1, posLe_trans h2 (posLe_nextLine li col), h3, h4, ?_⟩
      rwa [contentBetween_nextLine lines hlen h2]
  | cons c rest ih =>
    intro col acc hsuf hP hInv
    have hc : (lines.getD li [])[col]? = some c := by
      have hd := List.getElem?_drop (lines.getD li []) col 0
      rw [← hsuf] at hd
      simpa using hd.symm
    have hrest : rest = (lines.getD li []).drop (col + 1) := by
      have hd : ((lines.getD li []).drop col).drop 1 = (lines.getD li []).drop (col + 1) :=
        List.drop_drop 1 col _
      rw [← hsuf] at hd
      simpa using hd
    have hPnext : posLe P0 ⟨li, col + 1⟩ := posLe_trans hP (posLe_succCol li col)
    by_cases hwc : isWS c = true
    · -- whitespace: skip the character, keep the match state
      have hstep : scanLine cs li (c :: rest) col acc = scanLine cs li rest (col + 1) acc := by
        simp [scanLine, hwc]
      rw [hstep]
      apply ih (col + 1) acc hrest hPnext
      intro st mc hsome
      obtain ⟨h1, h2, h3, h4, h5⟩ := hInv st mc hsome
      refine ⟨h1, posLe_trans h2 (posLe_succCol li col), h3, h4, ?_⟩
      rw [contentBetween_extend lines hc h2, stripWS_append, stripWS_ws_singleton hwc,
        List.append_nil, h5]
    · have hwf : isWS c = false := by simpa using hwc
      cases acc with
      | none =>
        by_cases hm : cs[0]? = some c
        · have hcs0 : 0 < cs.length := by
            rw [List.getElem?_eq_some] at hm; exact hm.1
          by_cases hone : 1 = cs.length
          · -- single-character sentence: found immediately
            have hstep : scanLine cs li (c :: rest) col none = .found ⟨li, col⟩ ⟨li, col + 1⟩ := by
              simp [scanLine, hwf, hm, hone]
            rw [hstep]
            constructor
            · intro s e h
              injection h with hs he
              subst hs; subst he
              refine ⟨hP, posLt_succCol li col, ?_⟩
              rw [contentBetween_extend lines hc (posLe_refl _), contentBetween_self,
                List.nil_append, stripWS_nonws_singleton hwf]
              cases cs with
              | nil => simp at hcs0
              | cons c0 cs' =>
                simp only [List.getElem?_cons_zero, Option.some.injEq] at hm
                have : cs' = [] := by
                  have := hone.symm
                  simp only [List.length_cons] at this
                  exact List.eq_nil_of_length_eq_zero (by omega)
                subst this; rw [hm]
            · intro acc2 h; cases h
          · -- start a new candidate match of length 1
            have hstep : scanLine cs li (c :: rest) col none =
                scanLine cs li rest (col + 1) (some (⟨li, col⟩, 1)) := by
              simp [scanLine, hwf, hm, hone]
            rw [hstep]
            apply ih (col + 1) _ hrest hPnext
            intro st mc hsome
            injection hsome with hpair
            injection hpair with hst hmc
            subst hst; subst hmc
            refine ⟨hP, posLe_succCol li col, Nat.one_pos, by omega, ?_⟩
            rw [contentBetween_extend lines hc (posLe_refl _), contentBetween_self,
              List.nil_append, stripWS_nonws_singleton hwf]
            cases cs with
            | nil => simp at hcs0
            | cons c0 cs' =>
              simp only [List.getElem?_cons_zero, Option.some.injEq] at hm
              rw [hm]; rfl
        · -- mismatch on an empty match: move on with no candidate
          have hstep : scanLine cs li (c :: rest) col none =
              scanLine cs li rest (col + 1) none := by
            simp [scanLine, hwf, hm]
          rw [hstep]
          exact ih (col + 1) none hrest hPnext (AccInv_none lines cs P0 _)
      | some pair =>
        obtain ⟨st0, mc0⟩ := pair
        obtain ⟨h1, h2, h3, h4, h5⟩ := hInv st0 mc0 rfl
        by_cases hm : cs[mc0]? = some c
        · by_cases hdone : mc0 + 1 = cs.length
          · -- the match completes on this character
            have hstep : scanLine cs li (c :: rest) col (some (st0, mc0)) =
                .found st0 ⟨li, col + 1⟩ := by
              simp [scanLine, hwf, hm, hdone]
            rw [hstep]
            constructor
            · intro s e h
              injection h with hs he
              subst hs; subst he
              refine ⟨h1, posLe_lt_trans h2 (posLt_succCol li col), ?_⟩
              rw [contentBetween_extend lines hc h2, stripWS_append,
                stripWS_nonws_singleton hwf, h5, ← take_succ_of_getElem hm]
              exact List.take_of_length_le (by omega)
            · intro acc2 h; cases h
          · -- extend the candidate match by one character
            have hstep : scanLine cs li (c :: rest) col (some (st0, mc0)) =
                scanLine cs li rest (col + 1) (some (st0, mc0 + 1)) := by
              simp [scanLine, hwf, hm, hdone]
            rw [hstep]
            apply ih (col + 1) _ hrest hPnext
            intro st mc hsome
            injection hsome with hpair
            injection hpair with hst hmc
            subst hst; subst hmc
            have hmclt : mc0 < cs.length := by
              rw [List.getElem?_eq_some] at hm; exact hm.1
            refine ⟨h1, posLe_trans h2 (posLe_succCol li col), by omega, by omega, ?_⟩
            rw [contentBetween_extend lines hc h2, stripWS_append,
              stripWS_nonws_singleton hwf, h5, ← take_succ_of_getElem hm]
        · -- mismatch: naive reset, discard the candidate start
          have hstep : scanLine cs li (c :: rest) col (some (st0, mc0)) =
              scanLine cs li rest (col + 1) none := by
            simp [scanLine, hwf, hm]
          rw [hstep]
          exact ih (col + 1) none hrest hPnext (AccInv_none lines cs P0 _)

/-- Soundness of the whole scan: a successful result starts at or after the
search start and covers (whitespace aside) exactly the cleaned sentence. -/
theorem scanLines_spec (lines : List (List Char)) (cs : List Char) (P0 : Position)
    (ls : List (List Char)) :
    ∀ (li col : Nat) (acc : Option (Position × Nat)),
      ls = lines.drop li →
      posLe P0 ⟨li, col⟩ →
      AccInv lines cs P0 acc ⟨li, col⟩ →
      ∀ s e, scanLines cs ls li col acc = some (s, e) →
        posLe P0 s ∧ posLt s e ∧ stripWS (contentBetween lines s e) = cs := by
  induction ls with
  | nil =>
    intro li col acc _ _ _ s e h
    simp [scanLines] at h
  | cons l ls' ih =>
    intro li col acc hls hP hInv s e h
    have hl : lines.getD li [] = l := by
      have h0 : (lines.drop li)[0]? = some l := by rw [← hls]; simp
      rw [List.getElem?_drop] at h0
      simp only [Nat.add_zero] at h0
      rw [List.getD_eq_getElem?_getD, h0]; rfl
    have hls' : ls' = lines.drop (li + 1) := by
      have hd : (lines.drop li).drop 1 = lines.drop (li + 1) := List.drop_drop 1 li _
      rw [← hls] at hd
      simpa using hd
    have hsuffix : l.drop col = (lines.getD li []).drop col := by rw [hl]
    obtain ⟨hfound, hcont⟩ := scanLine_spec lines cs P0 li (l.drop col) col acc hsuffix hP hInv
    cases hstep : scanLine cs li (l.drop col) col acc with
    | found s0 e0 =>
      have heq : some (s0, e0) = some (s, e) := by rw [← h]; simp [scanLines, hstep]
      injection heq with hpair
      injection hpair with hs he
      subst hs; subst he
      exact hfound _ _ hstep
    | cont acc2 =>
      have h' : scanLines cs ls' (li + 1) 0 acc2 = some (s, e) := by
        rw [← h]; simp [scanLines, hstep]
      exact ih (li + 1) 0 acc2 hls' (posLe_trans hP (posLe_nextLine li col))
        (hcont acc2 hstep) s e h'

/-- Soundness of `findEndPosition`: a successful match starts at or after the
given start position, is a non-empty forward span, and its covered document
content equals the sentence once whitespace is removed from both. -/
theorem findEndPosition_spec {s T : String} {P ps pe : Position}
    (h : findEndPosition s T P = some (ps, pe)) :
    posLe P ps ∧ posLt ps pe ∧
      stripWS (contentBetween (splitLines T) ps pe) = cleanChars s := by
  unfold findEndPosition at h
  exact scanLines_spec (splitLines T) (cleanChars s) P
    ((splitLines T).drop P.lineIndex) P.lineIndex P.columnIndex none rfl
    (posLe_refl P) (AccInv_none _ _ _ _) ps pe h

/-- With an empty cleaned sentence the match condition `cs[mc]? = some c`
never holds (`undefined === ch` is false in JS), so a line scan never
completes a match. -/
theorem scanLine_nil_cs (li : Nat) (suffix : List Char) :
    ∀ (col : Nat) (acc : Option (Position × Nat)),
      ∃ acc2, scanLine [] li suffix col acc = .cont acc2 := by
  induction suffix with
  | nil => intro col acc; exact ⟨acc, rfl⟩
  | cons c rest ih =>
    intro col acc
    by_cases hwc : isWS c = true
    · simpa [scanLine, hwc] using ih (col + 1) acc
    · have hwf : isWS c = false := by simpa using hwc
      cases acc with
      | none => simpa [scanLine, hwf] using ih (col + 1) none
      | some pair =>
        obtain ⟨st, mc⟩ := pair
        simpa [scanLine, hwf] using ih (col + 1) none

/-- With an empty cleaned sentence the whole scan returns `{success: false}`. -/
theorem scanLines_nil_cs (ls : List (List Char)) :
    ∀ (li col : Nat) (acc : Option (Position × Nat)), scanLines [] ls li col acc = none := by
  induction ls with
  | nil => intro li col acc; rfl
  | cons l ls' ih =>
    intro li col acc
    obtain ⟨acc2, hstep⟩ := scanLine_nil_cs li (l.drop col) col acc
    simp [scanLines, hstep, ih]

/-- Every sentence located by the `calculateRanges` loop starts at or after
the cursor the loop was entered with, and spans strictly forward. -/
theorem calcGo_mem (rest : List String) (T : String) :
    ∀ (cur : Position) (r : DocumentSentence), r ∈ calcGo rest T cur →
      posLe cur r.range.startsAt ∧ posLt r.range.startsAt r.range.endsAt := by
  induction rest with
  | nil => intro cur r h; simp [calcGo] at h
  | cons s rest' ih =>
    intro cur r h
    cases hf : findEndPosition s T cur with
    | none =>
      rw [calcGo, hf] at h
      exact ih cur r h
    | some pr =>
      obtain ⟨ps, pe⟩ := pr
      obtain ⟨hcur, hlt, _⟩ := findEndPosition_spec hf
      rw [calcGo, hf] at h
      rcases List.mem_cons.mp h with hhead | htail
      · subst hhead
        exact ⟨hcur, hlt⟩
      · obtain ⟨h1, h2⟩ := ih _ r htail
        exact ⟨posLe_trans (posLe_of_lt (posLe_lt_trans hcur hlt)) h1, h2⟩

/-- The ranges produced by the `calculateRanges` loop are pairwise ordered:
every earlier sentence ends at or before every later sentence starts. -/
theorem calcGo_pairwise (rest : List String) (T : String) :
    ∀ (cur : Position),
      List.Pairwise (fun a b => posLe a.range.endsAt b.range.startsAt) (calcGo rest T cur) := by
  induction rest with
  | nil => intro cur; simp [calcGo]
  | cons s rest' ih =>
    intro cur
    cases hf : findEndPosition s T cur with
    | none => rw [calcGo, hf]; exact ih cur
    | some pr =>
      obtain ⟨ps, pe⟩ := pr
      rw [calcGo, hf]
      refine List.Pairwise.cons ?_ (ih _)
      intro b hb
      exact (calcGo_mem rest' T _ b hb).1

theorem head_dropWhile_not {α : Type} (p : α → Bool) :
    ∀ (l : List α) (c : α), (l.dropWhile p).head? = some c → p c = false := by
  intro l
  induction l with
  | nil => intro c h; simp [List.dropWhile] at h
  | cons a t ih =>
    intro c h
    rw [List.dropWhile_cons] at h
    by_cases hp : p a
    · rw [if_pos hp] at h; exact ih c h
    · rw [if_neg hp] at h
      injection h with h
      subst h
      simpa using hp

theorem dropWhile_eq_self_of_head {α : Type} (p : α → Bool) (l : List α)
    (h : ∀ c, l.head? = some c → p c = false) : l.dropWhile p = l := by
  cases l with
  | nil => rfl
  | cons a t =>
    have := h a rfl
    simp [List.dropWhile_cons, this]

theorem head?_append_left {α : Type} {a : List α} (b : List α) {c : α}
    (h : a.head? = some c) : (a ++ b).head? = some c := by
  cases a with
  | nil => simp at h
  | cons x t => simpa using h

/-- `trim` is idempotent: a trimmed string has no leading and no trailing
whitespace left to remove. -/
theorem trimChars_idem (l : List Char) : trimChars (trimChars l) = trimChars l := by
  have hhead : ∀ c, (trimChars l).head? = some c → isWS c = false := by
    intro c hc
    unfold trimChars at hc
    exact head_dropWhile_not isWS _ c hc
  have hlast : ∀ c, (trimChars l).reverse.head? = some c → isWS c = false := by
    intro c hc
    unfold trimChars at hc
    set X := (l.reverse.dropWhile isWS).reverse with hX
    have hsplit : X = X.takeWhile isWS ++ X.dropWhile isWS :=
      (List.takeWhile_append_dropWhile isWS X).symm
    have hrev : X.reverse = (X.dropWhile isWS).reverse ++ (X.takeWhile isWS).reverse := by
      conv_lhs => rw [hsplit]
      exact List.reverse_append _ _
    have hXrev : X.reverse.head? = some c := by
      rw [hrev]
      exact head?_append_left _ hc
    rw [hX, List.reverse_reverse] at hXrev
    exact head_dropWhile_not isWS _ c hXrev
  have houter : ∀ m : List Char,
      trimChars m = ((m.reverse.dropWhile isWS).reverse).dropWhile isWS := fun _ => rfl
  rw [houter (trimChars l), dropWhile_eq_self_of_head isWS _ hlast, List.reverse_reverse,
    dropWhile_eq_self_of_head isWS _ hhead]

/-- Every paragraph emitted by the splitter loop carries a fully trimmed
text (no leading and no trailing whitespace), provided the already-emitted
ones do. -/
theorem paraSplitGo_text (ls : List (List Char)) :
    ∀ (i : Nat) (buf : List Char) (sl : Nat) (acc : List Paragraph),
      (∀ p ∈ acc, jsTrim p.text = p.text) →
      ∀ p ∈ paraSplitGo ls i buf sl acc, jsTrim p.text = p.text := by
  induction ls with
  | nil =>
    intro i buf sl acc hacc p hp
    by_cases hb : buf = []
    · rw [paraSplitGo, if_pos hb] at hp
      exact hacc p hp
    · rw [paraSplitGo, if_neg hb] at hp
      rcases List.mem_append.mp hp with h | h
      · exact hacc p h
      · simp only [List.mem_singleton] at h
        subst h
        unfold jsTrim
        simp [trimChars_idem]
  | cons line rest ih =>
    intro i buf sl acc hacc p hp
    rw [paraSplitGo] at hp
    by_cases hcond : line.head? = some '#' ∧ buf ≠ []
    · rw [if_pos hcond] at hp
      apply ih _ _ _ _ ?_ p hp
      intro q hq
      rcases List.mem_append.mp hq with h | h
      · exact hacc q h
      · simp only [List.mem_singleton] at h
        subst h
        unfold jsTrim
        simp [trimChars_idem]
    · rw [if_neg hcond] at hp
      exact ih _ _ _ _ hacc p hp

/-- Round-trip invariant of the backtracking loop: whatever path the dp
comparisons choose, the `equal`/`delete` values spell out the first `i`
characters of `text1` and the `equal`/`insert` values the first `j`
characters of `text2`, in front of whatever the accumulator restores. -/
theorem backtrackAux_restore (t1 t2 : List Char) (dp : Nat → Nat → Nat) :
    ∀ (fuel i j : Nat) (acc : List DiffPart), i + j ≤ fuel →
      restoreOriginal (backtrackAux t1 t2 dp fuel i j acc) =
        t1.take i ++ restoreOriginal acc ∧
      restoreCorrected (backtrackAux t1 t2 dp fuel i j acc) =
        t2.take j ++ restoreCorrected acc := by
  intro fuel
  induction fuel with
  | zero =>
    intro i j acc h
    have hi : i = 0 := by omega
    have hj : j = 0 := by omega
    subst hi; subst hj
    simp [backtrackAux]
  | succ fuel ih =>
    intro i j acc h
    by_cases h00 : i = 0 ∧ j = 0
    · obtain ⟨hi, hj⟩ := h00
      subst hi; subst hj
      simp [backtrackAux]
    · by_cases heq : 0 < i ∧ 0 < j ∧ t1[i - 1]? = t2[j - 1]?
      · have hstep : backtrackAux t1 t2 dp (fuel + 1) i j acc =
            backtrackAux t1 t2 dp fuel (i - 1) (j - 1)
              ({ type := .equal, value := (t1[i - 1]?).toList } :: acc) := by
          simp only [backtrackAux]
          rw [if_neg h00, if_pos heq]
        rw [hstep]
        obtain ⟨r1, r2⟩ := ih (i - 1) (j - 1)
          ({ type := .equal, value := (t1[i - 1]?).toList } :: acc) (by omega)
        constructor
        · rw [r1]
          simp only [restoreOriginal]
          rw [← List.append_assoc]
          congr 1
          have hone : i - 1 + 1 = i := by omega
          conv_rhs => rw [← hone]
          rw [List.take_succ]
        · rw [r2]
          simp only [restoreCorrected]
          rw [← List.append_assoc]
          congr 1
          have heqc : t1[i - 1]? = t2[j - 1]? := heq.2.2
          rw [heqc]
          have hone : j - 1 + 1 = j := by omega
          conv_rhs => rw [← hone]
          rw [List.take_succ]
      · by_cases hins : 0 < j ∧ (i = 0 ∨ dp i (j - 1) ≥ dp (i - 1) j)
        · have hstep : backtrackAux t1 t2 dp (fuel + 1) i j acc =
              backtrackAux t1 t2 dp fuel i (j - 1)
                ({ type := .insert, value := (t2[j - 1]?).toList } :: acc) := by
            simp only [backtrackAux]
            rw [if_neg h00, if_neg heq, if_pos hins]
          rw [hstep]
          obtain ⟨r1, r2⟩ := ih i (j - 1)
            ({ type := .insert, value := (t2[j - 1]?).toList } :: acc) (by omega)
          constructor
          · rw [r1]
            simp only [restoreOriginal]
            rw [List.nil_append]
          · rw [r2]
            simp only [restoreCorrected]
            rw [← List.append_assoc]
            congr 1
            have hone : j - 1 + 1 = j := by omega
            conv_rhs => rw [← hone]
            rw [List.take_succ]
        · have hi : 0 < i := by
            rcases Nat.eq_zero_or_pos i with hi0 | hi0
            · exfalso
              apply hins
              constructor
              · omega
              · exact Or.inl hi0
            · exact hi0
          have hstep : backtrackAux t1 t2 dp (fuel + 1) i j acc =
              backtrackAux t1 t2 dp fuel (i - 1) j
                ({ type := .delete, value := (t1[i - 1]?).toList } :: acc) := by
            simp only [backtrackAux]
            rw [if_neg h00, if_neg heq, if_neg hins]
          rw [hstep]
          obtain ⟨r1, r2⟩ := ih (i - 1) j
            ({ type := .delete, value := (t1[i - 1]?).toList } :: acc) (by omega)
          constructor
          · rw [r1]
            simp only [restoreOriginal]
            rw [← List.append_assoc]
            congr 1
            have hone : i - 1 + 1 = i := by omega
            conv_rhs => rw [← hone]
            rw [List.take_succ]
          · rw [r2]
            simp only [restoreCorrected]
            rw [List.nil_append]

theorem mergeGo_restoreOriginal : ∀ (l : List DiffPart) (cur : DiffPart),
    restoreOriginal (mergeGo (some cur) l) = restoreOriginal (cur :: l) := by
  intro l
  induction l with
  | nil => intro cur; rfl
  | cons p rest ih =>
    intro cur
    by_cases ht : cur.type = p.type
    · rw [mergeGo, if_pos ht, ih]
      cases hc : cur.type <;> rw [hc] at ht <;>
        simp [restoreOriginal, hc, ← ht, List.append_assoc]
    · rw [mergeGo, if_neg ht]
      simp only [restoreOriginal, ih]

theorem mergeGo_restoreCorrected : ∀ (l : List DiffPart) (cur : DiffPart),
    restoreCorrected (mergeGo (some cur) l) = restoreCorrected (cur :: l) := by
  intro l
  induction l with
  | nil => intro cur; rfl
  | cons p rest ih =>
    intro cur
    by_cases ht : cur.type = p.type
    · rw [mergeGo, if_pos ht, ih]
      cases hc : cur.type <;> rw [hc] at ht <;>
        simp [restoreCorrected, hc, ← ht, List.append_assoc]
    · rw [mergeGo, if_neg ht]
      simp only [restoreCorrected, ih]

/-- `mergeDiff` preserves both restored sides. -/
theorem mergeDiff_restore (l : List DiffPart) :
    restoreOriginal (mergeDiff l) = restoreOriginal l ∧
      restoreCorrected (mergeDiff l) = restoreCorrected l := by
  cases l with
  | nil => exact ⟨rfl, rfl⟩
  | cons p rest =>
    exact ⟨mergeGo_restoreOriginal rest p, mergeGo_restoreCorrected rest p⟩

/-- The merge loop never leaves two adjacent runs of the same type, and the
first emitted run keeps the type of the run being extended. -/
theorem mergeGo_chain : ∀ (l : List DiffPart) (cur : DiffPart),
    List.Chain' (fun a b => a.type ≠ b.type) (mergeGo (some cur) l) ∧
      ∀ q, (mergeGo (some cur) l).head? = some q → q.type = cur.type := by
  intro l
  induction l with
  | nil =>
    intro cur
    refine ⟨List.chain'_singleton cur, ?_⟩
    intro q h
    injection h with h
    subst h; rfl
  | cons p rest ih =>
    intro cur
    by_cases ht : cur.type = p.type
    · rw [mergeGo, if_pos ht]
      obtain ⟨hch, hhd⟩ := ih { type := cur.type, value := cur.value ++ p.value }
      exact ⟨hch, fun q hq => hhd q hq⟩
    · rw [mergeGo, if_neg ht]
      obtain ⟨hch, hhd⟩ := ih p
      constructor
      · rw [List.chain'_cons']
        refine ⟨?_, hch⟩
        intro b hb
        have hbt : b.type = p.type := hhd b (by simpa using hb)
        rw [hbt]
        exact ht
      · intro q hq
        injection hq with hq
        subst hq; rfl

/-- `mergeDiff` output has no two adjacent runs of the same type. -/
theorem mergeDiff_chain (l : List DiffPart) :
    List.Chain' (fun a b => a.type ≠ b.type) (mergeDiff l) := by
  cases l with
  | nil => exact List.chain'_nil
  | cons p rest => exact (mergeGo_chain rest p).1

theorem lookup_mapIdx {α β : Type} (items : List α) (compute : α → β) :
    ∀ (sched : List Nat) (i : Nat) (a : α), items[i]? = some a → i ∈ sched →
      (sched.filterMap (fun j => (items[j]?).map (fun x => (j, compute x)))).lookup i =
        some (compute a) := by
  intro sched
  induction sched with
  | nil => intro i a _ h; simp at h
  | cons j rest ih =>
    intro i a ha hmem
    by_cases hji : i = j
    · subst hji
      rw [List.filterMap_cons, ha]
      simp [List.lookup]
    · have hmem' : i ∈ rest := by
        rcases List.mem_cons.mp hmem with h | h
        · exact absurd h hji
        · exact h
      rw [List.filterMap_cons]
      cases hj : items[j]? with
      | none => simpa using ih i a ha hmem'
      | some x =>
        have hne : (i == j) = false := by simp [hji]
        simp only [Option.map_some']
        rw [List.lookup, hne]
        exact ih i a ha hmem'

theorem range_filterMap_map {α β : Type} (l : List α) (f : α → β) :
    (List.range l.length).filterMap (fun i => (l[i]?).map f) = l.map f := by
  induction l with
  | nil => rfl
  | cons a t ih =>
    rw [List.length_cons, List.range_succ_eq_map, List.filterMap_cons]
    simp only [List.getElem?_cons_zero, Option.map_some']
    rw [List.filterMap_map]
    have hfun : ((fun i => ((a :: t)[i]?).map f) ∘ Nat.succ) = fun i => (t[i]?).map f := by
      funext i
      simp
    rw [hfun, ih, List.map_cons]

/-- `Promise.all` resolves to the results in task order whenever the
completion schedule is a permutation of the task slots. -/
theorem promiseAll_perm {α β : Type} (items : List α) (compute : α → β) (sched : List Nat)
    (hperm : sched.Perm (List.range items.length)) :
    promiseAll items compute sched = items.map compute := by
  unfold promiseAll
  have hmem : ∀ i, i < items.length → i ∈ sched := by
    intro i hi
    exact hperm.mem_iff.mpr (List.mem_range.mpr hi)
  have hcong : ∀ i ∈ List.range items.length,
      (sched.filterMap (fun j => (items[j]?).map (fun x => (j, compute x)))).lookup i =
        (items[i]?).map compute := by
    intro i hi
    have hi' := List.mem_range.mp hi
    have ha : items[i]? = some (items.get ⟨i, hi'⟩) := by
      simp [List.getElem?_eq_getElem hi']
    rw [ha, lookup_mapIdx items compute sched i _ ha (hmem i hi')]
    rfl
  rw [List.filterMap_congr hcong]
  exact range_filterMap_map items compute

theorem withIdx_length {α : Type} (l : List α) : ∀ n : Nat, (withIdx n l).length = l.length := by
  induction l with
  | nil => intro n; rfl
  | cons a t ih => intro n; simp [withIdx, ih]

theorem withIdx_getElem {α : Type} (l : List α) :
    ∀ (n j : Nat), (withIdx n l)[j]? = (l[j]?).map (fun a => (n + j, a)) := by
  induction l with
  | nil => intro n j; simp [withIdx]
  | cons a t ih =>
    intro n j
    cases j with
    | zero => simp [withIdx]
    | succ j' =>
      rw [show withIdx n (a :: t) = (n, a) :: withIdx (n + 1) t from rfl]
      simp only [List.getElem?_cons_succ]
      rw [ih (n + 1) j']
      have harith : n + 1 + j' = n + (j' + 1) := by omega
      rw [harith]

/-- The batch loop emits exactly one record per task, in task order: with a
valid completion schedule per batch it is the plain map of the record
construction over the task list. -/
theorem streamGo_eq (mc : Nat) (outcome : Nat → CallOutcome) (sched : Nat → List Nat)
    (hmc : 0 < mc) (full : List (Nat × DocumentSentence))
    (hsched : ∀ b, (sched b).Perm (List.range (((full.drop (b * mc)).take mc).length))) :
    ∀ (fuel b : Nat) (tasks : List (Nat × DocumentSentence)),
      tasks = full.drop (b * mc) → tasks.length < fuel →
      streamGo mc outcome sched fuel b tasks =
        tasks.map (fun t => mkCorrectionRecord t.2 (callOpenAIAPI (outcome t.1))) := by
  intro fuel
  induction fuel with
  | zero => intro b tasks _ h; omega
  | succ fuel ih =>
    intro b tasks htasks hlen
    cases tasks with
    | nil => simp [streamGo]
    | cons t ts =>
      simp only [streamGo]
      have hperm := hsched b
      rw [← htasks] at hperm
      rw [promiseAll_perm _ _ _ hperm]
      have hdrop : (t :: ts).drop mc = full.drop ((b + 1) * mc) := by
        rw [htasks, List.drop_drop]
        congr 1
        ring
      have hlen' : ((t :: ts).drop mc).length < fuel := by
        rw [List.length_drop]
        simp only [List.length_cons] at hlen ⊢
        omega
      rw [ih (b + 1) ((t :: ts).drop mc) hdrop hlen']
      rw [← List.map_append, List.take_append_drop]

/-- With a positive concurrency limit and valid per-batch completion
schedules, `correctTextStream` is the plain map of the record construction
over the indexed sentence list. -/
theorem correctTextStream_eq (mc : Nat) (sentences : List DocumentSentence)
    (outcome : Nat → CallOutcome) (sched : Nat → List Nat) (hmc : 0 < mc)
    (hsched : ∀ b, (sched b).Perm
      (List.range ((((withIdx 0 sentences).drop (b * mc)).take mc).length))) :
    correctTextStream mc sentences outcome sched =
      (withIdx 0 sentences).map
        (fun t => mkCorrectionRecord t.2 (callOpenAIAPI (outcome t.1))) := by
  unfold correctTextStream
  exact streamGo_eq mc outcome sched hmc (withIdx 0 sentences) hsched
    (sentences.length + 1) 0 (withIdx 0 sentences)
    (by rw [Nat.zero_mul, List.drop_zero])
    (by rw [withIdx_length]; omega)

/-- C1 counterexample: `"ab"` is a whitespace-insensitive substring of
`"aab"` at or after position (0,0) — the span (0,1)..(0,3) covers exactly
`"ab"` — yet `findEndPosition` returns NotFound, because the naive reset
does not re-try the mismatched character as a new candidate start. -/
theorem findEndPosition_misses_wsSubstring :
    (∃ ps pe, posLe ⟨0, 0⟩ ps ∧
      stripWS (contentBetween (splitLines "aab") ps pe) = cleanChars "ab") ∧
    findEndPosition "ab" "aab" ⟨0, 0⟩ = none :=
  ⟨⟨⟨0, 1⟩, ⟨0, 3⟩, by decide, by decide⟩, by decide⟩

/-- C1 (amended): whenever `findEndPosition` succeeds, the returned range
starts at or after the given start position and its covered document
content, with all whitespace removed, equals the sentence with all
whitespace removed; but it may return NotFound for some sentences that are
whitespace-insensitive substrings, because of the naive mismatch reset. -/
theorem findEndPosition_success_matches (s T : String) (P ps pe : Position)
    (h : findEndPosition s T P = some (ps, pe)) :
    posLe P ps ∧ stripWS (contentBetween (splitLines T) ps pe) = cleanChars s :=
  ⟨(findEndPosition_spec h).1, (findEndPosition_spec h).2.2⟩

/-- Witness for C1 (amended) at a concrete successful match. -/
theorem findEndPosition_success_matches_witness :
    posLe ⟨0, 0⟩ ⟨0, 2⟩ ∧
      stripWS (contentBetween (splitLines "x ab c") ⟨0, 2⟩ ⟨0, 6⟩) = cleanChars "ab c" :=
  findEndPosition_success_matches "ab c" "x ab c" ⟨0, 0⟩ ⟨0, 2⟩ ⟨0, 6⟩ (by decide)

/-- C2: if the external correction call for sentence `i` fails, the call
step degrades to `{error: [], correctedSentence: ''}` (not an echo of the
original), and the batch is not aborted: the stream still emits exactly one
record per input sentence, each built from its own call outcome. -/
theorem correction_call_failure_degrades (mc : Nat) (sentences : List DocumentSentence)
    (outcome : Nat → CallOutcome) (sched : Nat → List Nat) (i : Nat)
    (hmc : 0 < mc)
    (hsched : ∀ b, (sched b).Perm
      (List.range ((((withIdx 0 sentences).drop (b * mc)).take mc).length)))
    (hfail : outcome i = .failure) :
    callOpenAIAPI (outcome i) = { error := [], correctedSentence := "" } ∧
    (correctTextStream mc sentences outcome sched).length = sentences.length ∧
    (∀ j s, sentences[j]? = some s →
      (correctTextStream mc sentences outcome sched)[j]? =
        some (mkCorrectionRecord s (callOpenAIAPI (outcome j)))) := by
  refine ⟨by rw [hfail]; rfl, ?_, ?_⟩
  · rw [correctTextStream_eq mc sentences outcome sched hmc hsched, List.length_map,
      withIdx_length]
  · intro j s hs
    rw [correctTextStream_eq mc sentences outcome sched hmc hsched, List.getElem?_map,
      withIdx_getElem, hs]
    simp

/-- Witness for C2: a failing call on a one-sentence batch still yields one
emitted record. -/
theorem correction_call_failure_degrades_witness :
    (correctTextStream 10 [demoSentence1] (fun _ => .failure)
      (demoSched 10 [demoSentence1])).length = 1 :=
  (correction_call_failure_degrades 10 [demoSentence1] (fun _ => .failure)
    (demoSched 10 [demoSentence1]) 0 (by decide) (fun b => List.Perm.refl _) rfl).2.1

/-- C3: an emitted record carries non-empty errors and the service's
corrected sentence exactly when the service returned a non-empty error list
AND a corrected sentence different from the original; in every other case
the record has no errors and echoes the original; consequently a record
with empty errors always satisfies `correctedSentence = originalSentence`. -/
theorem correctionRecord_spec (s : DocumentSentence) (resp : APIResponse) :
    ((resp.error ≠ [] ∧ resp.correctedSentence ≠ s.text) →
      (mkCorrectionRecord s resp).errors = resp.error ∧
      (mkCorrectionRecord s resp).correctedSentence = resp.correctedSentence) ∧
    (¬(resp.error ≠ [] ∧ resp.correctedSentence ≠ s.text) →
      (mkCorrectionRecord s resp).errors = [] ∧
      (mkCorrectionRecord s resp).correctedSentence = s.text) ∧
    ((mkCorrectionRecord s resp).errors ≠ [] ↔
      (resp.error ≠ [] ∧ resp.correctedSentence ≠ s.text)) ∧
    ((mkCorrectionRecord s resp).errors = [] →
      (mkCorrectionRecord s resp).correctedSentence =
        (mkCorrectionRecord s resp).originalSentence) := by
  by_cases hcond : 0 < resp.error.length ∧ resp.correctedSentence ≠ s.text
  · have hne : resp.error ≠ [] := List.length_pos.mp hcond.1
    unfold mkCorrectionRecord
    rw [if_pos hcond]
    refine ⟨fun _ => ⟨rfl, rfl⟩, fun hn => absurd ⟨hne, hcond.2⟩ hn, ?_, ?_⟩
    · exact ⟨fun _ => ⟨hne, hcond.2⟩, fun _ => hne⟩
    · intro habs
      exact absurd habs hne
  · unfold mkCorrectionRecord
    rw [if_neg hcond]
    refine ⟨?_, fun _ => ⟨rfl, rfl⟩, ?_, fun _ => rfl⟩
    · intro hc
      exact absurd ⟨List.length_pos.mpr hc.1, hc.2⟩ hcond
    · constructor
      · intro habs
        exact absurd rfl habs
      · intro hc
        exact absurd ⟨List.length_pos.mpr hc.1, hc.2⟩ hcond

/-- Witness for C3: a real error with a differing correction is reported. -/
theorem correctionRecord_spec_witness :
    (mkCorrectionRecord demoSentence1
      { error := ["e"], correctedSentence := "y" }).errors = ["e"] :=
  ((correctionRecord_spec demoSentence1 { error := ["e"], correctedSentence := "y" }).1
    (by decide)).1

/-- C4: with every call resolving (any outcome oracle) and any completion
order, the stream emits exactly one record per input sentence, and the i-th
emitted record corresponds to the i-th input sentence (same range and
original text), independent of completion latency within a batch. -/
theorem correctTextStream_order_preserving (mc : Nat) (sentences : List DocumentSentence)
    (outcome : Nat → CallOutcome) (sched : Nat → List Nat)
    (hmc : 0 < mc)
    (hsched : ∀ b, (sched b).Perm
      (List.range ((((withIdx 0 sentences).drop (b * mc)).take mc).length))) :
    (correctTextStream mc sentences outcome sched).length = sentences.length ∧
    (∀ (i : Nat) (s : DocumentSentence), sentences[i]? = some s →
      ∃ r : CorrectionResult, (correctTextStream mc sentences outcome sched)[i]? = some r ∧
        r.range = s.range ∧ r.originalSentence = s.text) := by
  constructor
  · rw [correctTextStream_eq mc sentences outcome sched hmc hsched, List.length_map,
      withIdx_length]
  · intro i s hs
    refine ⟨mkCorrectionRecord s (callOpenAIAPI (outcome i)), ?_, ?_, ?_⟩
    · rw [correctTextStream_eq mc sentences outcome sched hmc hsched, List.getElem?_map,
        withIdx_getElem, hs]
      simp
    · unfold mkCorrectionRecord
      split <;> rfl
    · unfold mkCorrectionRecord
      split <;> rfl

/-- Witness for C4 on a concrete two-sentence input. -/
theorem correctTextStream_order_preserving_witness :
    (correctTextStream 10 [demoSentence1, demoSentence2]
      (fun _ => .ok { error := [], correctedSentence := "" })
      (demoSched 10 [demoSentence1, demoSentence2])).length = 2 :=
  (correctTextStream_order_preserving 10 [demoSentence1, demoSentence2]
    (fun _ => .ok { error := [], correctedSentence := "" })
    (demoSched 10 [demoSentence1, demoSentence2])
    (by decide) (fun b => List.Perm.refl _)).1

/-- C5: on the document `"# Title\nThis is a test.  It has two sentences."`
with the segmentation service returning the two sentences, the pipeline
produces exactly two positioned sentences, starting at the `T` of "This"
(line 1, column 0) and the `I` of "It" (line 1, column 17). -/
theorem segmentation_concrete_scenario :
    (processParagraphs 10 "# Title\nThis is a test.  It has two sentences."
      (fun _ => ["This is a test.", "It has two sentences."]) (fun _ => [0])).map
      (fun s => (s.range.startsAt, s.text)) =
    [(⟨1, 0⟩, "This is a test."), (⟨1, 17⟩, "It has two sentences.")] := by
  decide

/-- C6 counterexample: for the document `"\nhello"` (blank first line, then
prose, no headings) the single emitted paragraph's text is `"hello"` — the
leading blank line is NOT retained, because the splitter uses a full
`trim()`, not a trailing-only trim. -/
theorem paragraph_leading_ws_not_preserved :
    splitIntoParagraphs "\nhello" = [{ text := "hello", startLine := 0 }] ∧
    "hello" ≠ "\nhello" :=
  ⟨by decide, by decide⟩

/-- C6 (amended): each paragraph emitted by the splitter has as its text the
accumulated buffer trimmed of whitespace on BOTH ends (so trimming it again
changes nothing); in particular leading blank lines are removed, as the
`"\nhello"` instance shows. -/
theorem paragraph_text_trimmed_both_ends :
    (∀ (text : String), ∀ p ∈ splitIntoParagraphs text, jsTrim p.text = p.text) ∧
    splitIntoParagraphs "\nhello" = [{ text := "hello", startLine := 0 }] := by
  constructor
  · intro text p hp
    refine paraSplitGo_text (splitLines text) 0 [] 0 [] ?_ p hp
    intro q hq
    simp at hq
  · decide

/-- Witness for C6 (amended) at the concrete blank-line document. -/
theorem paragraph_text_trimmed_both_ends_witness :
    jsTrim "hello" = "hello" :=
  paragraph_text_trimmed_both_ends.1 "\nhello" { text := "hello", startLine := 0 } (by decide)

/-- C7: the positioned sentences produced by `calculateRanges` are pairwise
non-overlapping and monotonically increasing in document order — every
earlier sentence's end is at or before every later sentence's start, and
each range spans strictly forward; a failed match leaves the cursor
unchanged, which the loop invariant absorbs. -/
theorem calculateRanges_monotone (sentences : List String) (T : String) (startLine : Nat) :
    List.Pairwise (fun a b => posLe a.range.endsAt b.range.startsAt)
      (calculateRanges sentences T startLine) ∧
    ∀ r ∈ calculateRanges sentences T startLine, posLt r.range.startsAt r.range.endsAt := by
  constructor
  · exact calcGo_pairwise sentences T ⟨startLine, 0⟩
  · intro r hr
    exact (calcGo_mem sentences T ⟨startLine, 0⟩ r hr).2

/-- Witness for C7 at a concrete two-sentence paragraph. -/
theorem calculateRanges_monotone_witness :
    posLt (⟨0, 0⟩ : Position) ⟨0, 2⟩ :=
  (calculateRanges_monotone ["ab", "a"] "ab a" 0).2
    { range := { startsAt := ⟨0, 0⟩, endsAt := ⟨0, 2⟩ }, text := "ab" } (by decide)

/-- C8: `computeDiff("cat", "cart")` returns exactly the merged run list
`[{equal "ca"}, {insert "r"}, {equal "t"}]`. -/
theorem computeDiff_cat_cart :
    computeDiff "cat" "cart" =
      [{ type := .equal, value := "ca".data }, { type := .insert, value := "r".data },
        { type := .equal, value := "t".data }] := by
  decide

/-- C9: a sentence consisting only of whitespace characters — including the
empty string — is never located: `findEndPosition` returns NotFound for it
on every document and start position, and in particular never produces an
empty range. -/
theorem findEndPosition_whitespace_only (T : String) (P : Position) (s : String)
    (h : ∀ c ∈ s.data, isWS c = true) :
    findEndPosition s T P = none := by
  have hcs : cleanChars s = [] := by
    unfold cleanChars stripWS
    rw [List.filter_eq_nil_iff]
    intro c hc
    simp [h c hc]
  show scanLines (cleanChars s) ((splitLines T).drop P.lineIndex) P.lineIndex
    P.columnIndex none = none
  rw [hcs]
  exact scanLines_nil_cs _ _ _ _

/-- Witness for C9 at a concrete all-whitespace sentence. -/
theorem findEndPosition_whitespace_only_witness :
    findEndPosition " " "abc" ⟨0, 0⟩ = none :=
  findEndPosition_whitespace_only "abc" ⟨0, 0⟩ " " (by decide)

/-- C10: for every pair of input strings the diff round-trips both sides —
the `equal`/`delete` values concatenate to the first text and the
`equal`/`insert` values to the second — and no two adjacent merged runs
share a type. -/
theorem computeDiff_roundtrip (text1 text2 : String) :
    restoreOriginal (computeDiff text1 text2) = text1.data ∧
    restoreCorrected (computeDiff text1 text2) = text2.data ∧
    List.Chain' (fun a b => a.type ≠ b.type) (computeDiff text1 text2) := by
  have hdef : computeDiff text1 text2 =
      mergeDiff (backtrackAux text1.data text2.data
        (fun i j => ((lcsTable text1.data text2.data).getD i []).getD j 0)
        (text1.data.length + text2.data.length + 1)
        text1.data.length text2.data.length []) := rfl
  rw [hdef]
  obtain ⟨r1, r2⟩ := backtrackAux_restore text1.data text2.data
    (fun i j => ((lcsTable text1.data text2.data).getD i []).getD j 0)
    (text1.data.length + text2.data.length + 1)
    text1.data.length text2.data.length [] (by omega)
  refine ⟨?_, ?_, mergeDiff_chain _⟩
  · rw [(mergeDiff_restore _).1, r1]
    simp [restoreOriginal]
  · rw [(mergeDiff_restore _).2, r2]
    simp [restoreCorrected]

/-- Witness for C10 at a concrete pair. -/
theorem computeDiff_roundtrip_witness :
    restoreOriginal (computeDiff "cat" "cart") = "cat".data :=
  (computeDiff_roundtrip "cat" "cart").1
